import Mathlib

/-!
Verification of the reading-kg-pwa core against its specification.

The development shallowly embeds the TypeScript sources:
  * `src/lib/import/txt-parser.ts` — search orchestrator (`searchBooks`,
    `isISBN`, `rankByRegion`, `deduplicateByISBN`, `deduplicateByTitle`,
    `metadataScore`);
  * `src/lib/events.ts` together with the SQL schema (unique index
    `uq_reading_events_user_client_event`, view `valid_reading_events`) —
    event store, corrections and the valid-event projection;
  * `src/lib/sync.ts` / `src/lib/offline-queue.ts` — offline queue and the
    sync pass (`syncOfflineQueueOnce`, `classifyError`).

Stateful TypeScript (supabase calls, localStorage) becomes explicit state
passing over pure Lean functions; JavaScript truthiness, `Array.sort`
stability and `Map` insertion order are modelled explicitly where they
matter.
-/

namespace ReadingKG

/-! ## Data model: book candidates and regions -/

/-- Region hint of a book candidate, from `src/types/database.ts`. -/
inductive RegionHint where
  | HK
  | TW
  | CN
  | EN
  | OTHER
  deriving DecidableEq, Repr

/-- Source tag of a search result, from `src/types/content.ts`. -/
inductive BookSearchSource where
  | loc
  | open_library
  | google_books
  deriving DecidableEq, Repr

/-- The `BookCandidate` DTO from `src/types/content.ts`. Nullable fields
become `Option`; `string` stays `String` (a JS string may be empty, which
is falsy — modelled where the code relies on it). -/
structure BookCandidate where
  source : BookSearchSource
  title : String
  author : Option String
  publisher : Option String
  publish_year : Option Nat
  language : Option String
  region_hint : Option RegionHint
  isbn10 : Option String
  isbn13 : Option String
  cover : Option String
  deriving DecidableEq, Repr

/-- JS truthiness of a nullable string: `null` and `""` are falsy. -/
def truthyStr : Option String → Bool
  | none => false
  | some s => s ≠ ""

/-- JS truthiness of a nullable number: `null` and `0` are falsy. -/
def truthyNat : Option Nat → Bool
  | none => false
  | some n => n ≠ 0

/-- `metadataScore` from `src/lib/import/txt-parser.ts`: completeness score
with weight 2 for isbn13 and weight 1 for each of author, publisher,
publish_year, isbn10, cover, region_hint (each counted when truthy). -/
def metadataScore (c : BookCandidate) : Nat :=
  let s := 0
  let s := if truthyStr c.author then s + 1 else s
  let s := if truthyStr c.publisher then s + 1 else s
  let s := if truthyNat c.publish_year then s + 1 else s
  let s := if truthyStr c.isbn13 then s + 2 else s
  let s := if truthyStr c.isbn10 then s + 1 else s
  let s := if truthyStr c.cover then s + 1 else s
  let s := if c.region_hint.isSome then s + 1 else s
  s

/-! ## Region ranking -/

/-- The `REGION_PRIORITY` table: HK 1, TW 2, CN 3, EN 4, OTHER 5, null 6. -/
def REGION_PRIORITY : Option RegionHint → Nat
  | some .HK => 1
  | some .TW => 2
  | some .CN => 3
  | some .EN => 4
  | some .OTHER => 5
  | none => 6

/-- The comparator of `rankByRegion`: candidate `a` may come before `b`
when its region priority is not larger. -/
def regionLE (a b : BookCandidate) : Prop :=
  REGION_PRIORITY a.region_hint ≤ REGION_PRIORITY b.region_hint

instance : DecidableRel regionLE := fun a b =>
  inferInstanceAs (Decidable (REGION_PRIORITY a.region_hint ≤ REGION_PRIORITY b.region_hint))

instance : IsTotal BookCandidate regionLE :=
  ⟨fun a b => Nat.le_total (REGION_PRIORITY a.region_hint) (REGION_PRIORITY b.region_hint)⟩

instance : IsTrans BookCandidate regionLE :=
  ⟨fun _ _ _ hab hbc => Nat.le_trans hab hbc⟩

/-- `rankByRegion` from `src/lib/import/txt-parser.ts`:
`[...candidates].sort((a, b) => priorityA - priorityB)`. JS `Array.sort`
is a stable sort by the comparator; embedded as a stable insertion sort by
`regionLE` (the stable sorted permutation is unique, so any stable sort
gives the same list). -/
def rankByRegion (candidates : List BookCandidate) : List BookCandidate :=
  List.insertionSort regionLE candidates

/-! ## Deduplication -/

/-- The JS expression `c.isbn13 || c.isbn10` followed by the falsiness test
`!isbn` in `deduplicateByISBN`: the resulting dedup key, `none` when both
fields are falsy (null or empty). -/
def isbnKey (c : BookCandidate) : Option String :=
  match c.isbn13 with
  | some s => if s = "" then (match c.isbn10 with
      | some t => if t = "" then none else some t
      | none => none) else some s
  | none => match c.isbn10 with
    | some t => if t = "" then none else some t
    | none => none

/-- The filter loop of `deduplicateByISBN` with its `seen` set made an
explicit accumulator. -/
def dedupISBNGo : List String → List BookCandidate → List BookCandidate
  | _, [] => []
  | seen, c :: rest =>
    match isbnKey c with
    | none => c :: dedupISBNGo seen rest
    | some isbn =>
      if isbn ∈ seen then dedupISBNGo seen rest
      else c :: dedupISBNGo (isbn :: seen) rest

/-- `deduplicateByISBN` from `src/lib/import/txt-parser.ts`. -/
def deduplicateByISBN (candidates : List BookCandidate) : List BookCandidate :=
  dedupISBNGo [] candidates

/-- Basic-Latin case mapping of `String.prototype.toLowerCase`; characters
outside A–Z pass through (adequate for the title key: every character the
key filter keeps apart from a–z is caseless). -/
def jsToLower (c : Char) : Char :=
  if 'A' ≤ c ∧ c ≤ 'Z' then Char.ofNat (c.toNat + 32) else c

/-- The character class `[\w一-鿿]` of the title-key regex:
ASCII word characters plus the CJK unified ideograph block. -/
def isWordOrCJK (c : Char) : Bool :=
  (('a' ≤ c) && (c ≤ 'z')) || (('A' ≤ c) && (c ≤ 'Z')) ||
  (('0' ≤ c) && (c ≤ '9')) || (c = '_' : Bool) ||
  ((0x4e00 ≤ c.toNat) && (c.toNat ≤ 0x9fff))

/-- The normalized title key of `deduplicateByTitle`:
`title.toLowerCase().replace(/[^\w一-鿿]/g, "")`. -/
def normTitleKey (title : String) : String :=
  ⟨(title.data.map jsToLower).filter isWordOrCJK⟩

/-- Lookup in the insertion-ordered association list modelling the JS
`Map` of `deduplicateByTitle`. -/
def lookupKey (k : String) : List (String × BookCandidate) → Option BookCandidate
  | [] => none
  | (k', v) :: rest => if k' = k then some v else lookupKey k rest

/-- `Map.set`: replace the value at an existing key in place, otherwise
append at the end (JS `Map` preserves first-insertion order). -/
def setKey (k : String) (v : BookCandidate) :
    List (String × BookCandidate) → List (String × BookCandidate)
  | [] => [(k, v)]
  | (k', v') :: rest =>
    if k' = k then (k, v) :: rest else (k', v') :: setKey k v rest

/-- The loop of `deduplicateByTitle`: on a key collision the stored
candidate is replaced only when the newcomer scores strictly higher
(`candidateScore > existingScore`). -/
def dedupTitleGo : List (String × BookCandidate) → List BookCandidate →
    List (String × BookCandidate)
  | seen, [] => seen
  | seen, c :: rest =>
    let key := normTitleKey c.title
    match lookupKey key seen with
    | none => dedupTitleGo (setKey key c seen) rest
    | some existing =>
      if metadataScore existing < metadataScore c then
        dedupTitleGo (setKey key c seen) rest
      else
        dedupTitleGo seen rest

/-- `deduplicateByTitle` from `src/lib/import/txt-parser.ts`:
`Array.from(seen.values())` of the final map. -/
def deduplicateByTitle (candidates : List BookCandidate) : List BookCandidate :=
  (dedupTitleGo [] candidates).map Prod.snd

/-- One comparison step of the title-dedup survivor: a later candidate
replaces the current best only when its score is strictly greater. -/
def scoreStep (best d : BookCandidate) : BookCandidate :=
  if metadataScore best < metadataScore d then d else best

/-- Specification of the survivor of one title-key group: the fold that
keeps the earlier candidate unless a later one scores strictly higher. -/
def keptCandidate : List BookCandidate → Option BookCandidate
  | [] => none
  | c :: rest => some (rest.foldl scoreStep c)

/-- Survivor fold continued from an optional already-stored candidate. -/
def dedupGroupFold (acc : Option BookCandidate) (g : List BookCandidate) :
    Option BookCandidate :=
  match acc with
  | none => keptCandidate g
  | some v => some (g.foldl scoreStep v)

/-! ## ISBN detection and query classification -/

/-- The JS whitespace class: characters matched by `\s` in a regex, which
is also the set removed by `String.prototype.trim`. -/
def jsWhitespaceChar (c : Char) : Bool :=
  c.toNat ∈ [0x9, 0xa, 0xb, 0xc, 0xd, 0x20, 0xa0, 0x1680,
    0x2000, 0x2001, 0x2002, 0x2003, 0x2004, 0x2005, 0x2006, 0x2007,
    0x2008, 0x2009, 0x200a, 0x2028, 0x2029, 0x202f, 0x205f, 0x3000, 0xfeff]

/-- `String.prototype.trim`: strip leading and trailing JS whitespace. -/
def jsTrim (s : String) : String :=
  ⟨((s.data.dropWhile jsWhitespaceChar).reverse.dropWhile jsWhitespaceChar).reverse⟩

/-- Greedy matcher for the regex fragment `(?:\d[- ]?){n}`, returning the
unconsumed remainder. For the two ISBN regexes greedy matching equals full
backtracking: a skipped separator would have to begin the next group or the
tail, and neither `[-]` nor a space can do either. -/
def isbnGroups : Nat → List Char → Option (List Char)
  | 0, cs => some cs
  | _ + 1, [] => none
  | n + 1, c :: cs =>
    if c.isDigit then
      match cs with
      | d :: cs' => if d = '-' ∨ d = ' ' then isbnGroups n cs' else isbnGroups n cs
      | [] => isbnGroups n []
    else none

/-- `ISBN_10_REGEX.test`: the anchored regex `(?:\d[- ]?){9}[\dXx]`. -/
def isbn10RegexTest (cs : List Char) : Bool :=
  match isbnGroups 9 cs with
  | some [c] => c.isDigit || c = 'X' || c = 'x'
  | _ => false

/-- `ISBN_13_REGEX.test`: the anchored regex `(?:\d[- ]?){13}`. -/
def isbn13RegexTest (cs : List Char) : Bool :=
  match isbnGroups 13 cs with
  | some [] => true
  | _ => false

/-- `query.replace(/[-\s]/g, "")`: drop hyphens and JS whitespace. -/
def stripSeparators (query : String) : List Char :=
  query.data.filter (fun c => !(c = '-' || jsWhitespaceChar c))

/-- `isISBN` from `src/lib/import/txt-parser.ts`: a regex hit on the raw
query, or a stripped length of exactly 10 or 13 characters. -/
def isISBN (query : String) : Bool :=
  let cleaned := stripSeparators query
  isbn10RegexTest query.data || isbn13RegexTest query.data ||
    cleaned.length == 10 || cleaned.length == 13

/-- Numeric value of an ISBN digit character. -/
def digitVal (c : Char) : Nat := c.toNat - '0'.toNat

/-- Modelled from the spec for the refinement comparison (the code has no
checksum logic): ISBN-10 shape and checksum — nine digits plus a final
digit or X, with `(sum of (10 - i) * d_i) mod 11 = 0` where X counts 10. -/
def specIsbn10Valid (cs : List Char) : Bool :=
  cs.length == 10 &&
  (cs.take 9).all Char.isDigit &&
  (match cs.getLast? with
   | some c => c.isDigit || c = 'X' || c = 'x'
   | none => false) &&
  (let vals := cs.map (fun c => if c = 'X' ∨ c = 'x' then 10 else digitVal c)
   ((vals.zipWith (· * ·) [10, 9, 8, 7, 6, 5, 4, 3, 2, 1]).foldl (· + ·) 0) % 11 == 0)

/-- Modelled from the spec for the refinement comparison: ISBN-13 shape
and checksum — thirteen digits with alternating weights 1 and 3 summing to
a multiple of 10. -/
def specIsbn13Valid (cs : List Char) : Bool :=
  cs.length == 13 &&
  cs.all Char.isDigit &&
  (((cs.map digitVal).zipWith (· * ·)
      [1, 3, 1, 3, 1, 3, 1, 3, 1, 3, 1, 3, 1]).foldl (· + ·) 0) % 10 == 0

/-- Modelled from the spec for the refinement comparison: the claimed
routing predicate — after stripping separators the query matches an
ISBN-10 or ISBN-13 pattern and its checksum validates. -/
def specISBNQuery (query : String) : Bool :=
  specIsbn10Valid (stripSeparators query) || specIsbn13Valid (stripSeparators query)

/-! ## The search orchestrator -/

/-- `SearchOptions` from `src/lib/import/txt-parser.ts` (the
`includeISBNLookup` flag is declared but never read by `searchBooks`). -/
structure SearchOptions where
  localOnly : Bool := false
  includeISBNLookup : Bool := false
  deriving DecidableEq, Repr

/-- `SearchResult` from `src/lib/import/txt-parser.ts`. -/
structure SearchResult where
  loc : List BookCandidate
  external : List BookCandidate
  isISBNQuery : Bool
  deriving DecidableEq, Repr

/-- The collaborators `searchBooks` calls, made explicit: the local
repository query and the two external adapters (keyword search with a
result limit, and ISBN lookup). -/
structure SearchEnv where
  localResults : String → List BookCandidate
  openLibraryKeyword : String → Nat → List BookCandidate
  googleBooksKeyword : String → Nat → List BookCandidate
  openLibraryIsbn : String → Option BookCandidate
  googleBooksIsbn : String → Option BookCandidate

/-- One observable collaborator invocation made during a search. -/
inductive SearchCall where
  | localQuery (q : String)
  | keywordLookup (src : BookSearchSource) (q : String) (limit : Nat)
  | isbnLookup (src : BookSearchSource) (q : String)
  deriving DecidableEq, Repr

/-- `searchBooks` from `src/lib/import/txt-parser.ts`, instrumented with a
log of collaborator calls (in program order; the two `Promise.all` legs are
logged in array order). An empty trimmed query returns immediately; the
local stage always runs otherwise; `localOnly` skips stage 2; an ISBN query
fans out to both ISBN lookups, pushing non-null results in order, then
dedupes by ISBN; otherwise both keyword searches run with limit 5, are
concatenated and deduped by title; the external list is region-ranked. -/
def searchBooks (env : SearchEnv) (query : String) (options : SearchOptions) :
    SearchResult × List SearchCall :=
  let trimmedQuery := jsTrim query
  if trimmedQuery = "" then
    (⟨[], [], false⟩, [])
  else
    let isISBNQuery := isISBN trimmedQuery
    let localList := env.localResults trimmedQuery
    if options.localOnly then
      (⟨localList, [], isISBNQuery⟩, [.localQuery trimmedQuery])
    else if isISBNQuery then
      let openLibResult := env.openLibraryIsbn trimmedQuery
      let googleResult := env.googleBooksIsbn trimmedQuery
      let results := openLibResult.toList ++ googleResult.toList
      let external := rankByRegion (deduplicateByISBN results)
      (⟨localList, external, isISBNQuery⟩,
        [.localQuery trimmedQuery, .isbnLookup .open_library trimmedQuery,
          .isbnLookup .google_books trimmedQuery])
    else
      let combined := env.openLibraryKeyword trimmedQuery 5 ++
        env.googleBooksKeyword trimmedQuery 5
      let external := rankByRegion (deduplicateByTitle combined)
      (⟨localList, external, isISBNQuery⟩,
        [.localQuery trimmedQuery, .keywordLookup .open_library trimmedQuery 5,
          .keywordLookup .google_books trimmedQuery 5])

/-- An environment whose collaborators all return nothing, for concrete
evaluations. -/
def emptySearchEnv : SearchEnv :=
  ⟨fun _ => [], fun _ _ => [], fun _ _ => [], fun _ => none, fun _ => none⟩

/-- A minimal candidate carrying only a region hint, for the ranking
example. -/
def regionOnlyCandidate (r : Option RegionHint) : BookCandidate :=
  ⟨.open_library, "t", none, none, none, none, r, none, none, none⟩

/-- Concrete candidate titled "Dream of the Red Chamber" with no further
metadata (score 0). -/
def dreamPlain : BookCandidate :=
  ⟨.open_library, "Dream of the Red Chamber", none, none, none, none,
    none, none, none, none⟩

/-- Concrete candidate titled "dream of the red chamber!!" carrying an
author (score 1). -/
def dreamNoisy : BookCandidate :=
  ⟨.google_books, "dream of the red chamber!!", some "Cao Xueqin", none,
    none, none, none, none, none, none⟩

/-! ## Event store, corrections and the valid-event projection

From `src/lib/events.ts` and the SQL schema: the `reading_events` table with
its unique index `uq_reading_events_user_client_event` on
`(user_id, client_event_id)`, the check constraints, and the
`valid_reading_events` view. -/

/-- `event_type` of a reading event. -/
inductive EventType where
  | finished
  | ended
  | correction
  deriving DecidableEq, Repr

/-- A row of `reading_events`. Timestamps are abstract `Nat` instants; ids
and idempotency keys are strings as in the code (uuids). -/
structure EventRow where
  id : String
  user_id : String
  book_id : String
  event_type : EventType
  occurred_at : Nat
  completion : Int
  target_event_id : Option String
  client_event_id : String
  deriving DecidableEq, Repr

/-- Errors surfaced by the store on insert. -/
inductive DbError where
  | uniqueViolation
  | checkViolation
  deriving DecidableEq, Repr

/-- The check constraints of `reading_events`: completion range per event
type, correction target presence, and no self-targeting correction. -/
def rowChecksOK (e : EventRow) : Bool :=
  (match e.event_type with
   | .finished => e.completion == 100
   | .ended => 0 ≤ e.completion && e.completion ≤ 99
   | .correction => 0 ≤ e.completion && e.completion ≤ 100) &&
  (match e.event_type with
   | .correction => e.target_event_id.isSome
   | _ => e.target_event_id.isNone) &&
  (match e.target_event_id with
   | some t => t != e.id
   | none => true)

/-- Insert into `reading_events`: the unique index
`uq_reading_events_user_client_event` rejects a second row sharing
`(user_id, client_event_id)`; the check constraints reject malformed rows;
otherwise the row is appended. -/
def insertReadingEvent (store : List EventRow) (e : EventRow) :
    Except DbError (List EventRow) :=
  if store.any (fun r => r.user_id == e.user_id && r.client_event_id == e.client_event_id) then
    .error .uniqueViolation
  else if !rowChecksOK e then
    .error .checkViolation
  else
    .ok (store ++ [e])

/-- `createReadingEvent` from `src/lib/events.ts`: with a signed-in user it
builds a non-correction event carrying a fresh uuid as `client_event_id`
and inserts it; on error it returns null and leaves the store unchanged
(the offline-queue side effect is modelled separately by the sync engine).
Free inputs that the code draws from the runtime — the authenticated user,
the generated uuid pair and the clock — are explicit arguments. -/
def createReadingEvent (store : List EventRow) (user : Option String)
    (bookId : String) (eventType : EventType) (completion : Int)
    (freshId freshClientEventId : String) (now : Nat) :
    Option EventRow × List EventRow :=
  match user with
  | none => (none, store)
  | some uid =>
    let e : EventRow :=
      { id := freshId, user_id := uid, book_id := bookId,
        event_type := eventType, occurred_at := now, completion := completion,
        target_event_id := none, client_event_id := freshClientEventId }
    match insertReadingEvent store e with
    | .ok store' => (some e, store')
    | .error _ => (none, store)

/-- `correctEvent` from `src/lib/events.ts`: load the target row by id
(row-level security restricts the select to the caller's own rows), copy
its `book_id`, and insert a correction referencing the target; null and an
unchanged store on a missing target or an insert error. -/
def correctEvent (store : List EventRow) (user : Option String)
    (targetEventId : String) (newCompletion : Int)
    (freshId freshClientEventId : String) (now : Nat) :
    Option EventRow × List EventRow :=
  match user with
  | none => (none, store)
  | some uid =>
    match (store.filter (fun r => r.user_id == uid)).find? (fun r => r.id == targetEventId) with
    | none => (none, store)
    | some target =>
      let c : EventRow :=
        { id := freshId, user_id := uid, book_id := target.book_id,
          event_type := .correction, occurred_at := now,
          completion := newCompletion, target_event_id := some targetEventId,
          client_event_id := freshClientEventId }
      match insertReadingEvent store c with
      | .ok store' => (some c, store')
      | .error _ => (none, store)

/-- The `valid_reading_events` view: non-correction rows that are not the
target of any correction by the same owner. -/
def validReadingEvents (store : List EventRow) : List EventRow :=
  store.filter (fun e =>
    e.event_type != .correction &&
    !(store.any (fun c =>
      c.event_type == .correction && c.target_event_id == some e.id &&
        c.user_id == e.user_id)))

/-- The uniqueness invariant maintained by the index: no two rows share an
`(owner, client_event_id)` pair. -/
def KeyUnique (store : List EventRow) : Prop :=
  store.Pairwise (fun a b => ¬(a.user_id = b.user_id ∧ a.client_event_id = b.client_event_id))

/-! ## Offline queue and sync engine

From `src/lib/offline-queue.ts` and the sync module: `OfflineAction`,
`removeFromOfflineQueue`, `updateActionRetries`, `MAX_RETRIES` and the
single pass `syncOfflineQueueOnce`. The action payload type is abstract. -/

/-- Result of replaying one queued action, from the sync module. -/
inductive SyncResult where
  | success
  | retry
  | discard
  deriving DecidableEq, Repr

/-- `OfflineAction` from `src/lib/offline-queue.ts`; `retries?` is an
optional field defaulted to 0 on first use. -/
structure OfflineAction (π : Type) where
  id : String
  type : String
  payload : π
  timestamp : Nat
  retries : Option Nat := none
  deriving DecidableEq, Repr

/-- `MAX_RETRIES` from the sync module. -/
def MAX_RETRIES : Nat := 5

/-- `removeFromOfflineQueue`: keep every action with a different id. -/
def removeFromOfflineQueue {π : Type} (actionId : String)
    (queue : List (OfflineAction π)) : List (OfflineAction π) :=
  queue.filter (fun a => a.id != actionId)

/-- `updateActionRetries`: set the retry counter on the matching action. -/
def updateActionRetries {π : Type} (actionId : String) (retries : Nat)
    (queue : List (OfflineAction π)) : List (OfflineAction π) :=
  queue.map (fun a => if a.id == actionId then { a with retries := some retries } else a)

/-- The loop body of `syncOfflineQueueOnce`, iterating over the snapshot
while updating the stored queue: success or discard removes the action and
continues; a retryable failure bumps the retry counter, removes the action
once the counter reaches `MAX_RETRIES`, and breaks out of the pass. The
replay outcome (`processAction`, which inspects only the action's type and
payload) is the function parameter. -/
def syncLoop {π : Type} (process : String → π → SyncResult) :
    List (OfflineAction π) → List (OfflineAction π) → List (OfflineAction π)
  | [], stored => stored
  | a :: rest, stored =>
    match process a.type a.payload with
    | .success => syncLoop process rest (removeFromOfflineQueue a.id stored)
    | .discard => syncLoop process rest (removeFromOfflineQueue a.id stored)
    | .retry =>
      let nextRetries := (a.retries.getD 0) + 1
      let stored' := updateActionRetries a.id nextRetries stored
      if MAX_RETRIES ≤ nextRetries then removeFromOfflineQueue a.id stored'
      else stored'

/-- One pass of `syncOfflineQueueOnce` over a stored queue, assuming the
engine's preconditions (page context, browser online, signed-in user) hold:
the snapshot it iterates is the stored queue itself. -/
def syncOfflineQueueOnce {π : Type} (process : String → π → SyncResult)
    (stored : List (OfflineAction π)) : List (OfflineAction π) :=
  syncLoop process stored stored

/-- Case-insensitive substring test used by `classifyError`:
`message.toLowerCase().includes(needle)`. -/
def containsSub (hay needle : List Char) : Bool :=
  (List.range (hay.length + 1)).any (fun i => needle.isPrefixOf (hay.drop i))

/-- `classifyError` from the sync module: a lowercased message containing
"duplicate key" or "unique" is success (the effect already exists);
"failed to fetch" or "network" is retryable; anything else is discarded. -/
def classifyError (message : Option String) : SyncResult :=
  let m := (message.getD "").data.map jsToLower
  if containsSub m "duplicate key".data || containsSub m "unique".data then
    .success
  else if containsSub m "failed to fetch".data || containsSub m "network".data then
    .retry
  else
    .discard

/-- The queued action after `k` recorded retry attempts: the optional
`retries` field is still absent before the first attempt and `some k`
afterwards. -/
def retriedAction {π : Type} (a : OfflineAction π) : Nat → OfflineAction π
  | 0 => a
  | k + 1 => { a with retries := some (k + 1) }

/-- A sample reading event, for concrete instantiations. -/
def sampleEventRow : EventRow :=
  ⟨"e1", "u", "b", .finished, 0, 100, none, "k"⟩

/-- The correction produced by correcting `sampleEventRow` to 40. -/
def sampleCorrection : EventRow :=
  ⟨"c1", "u", "b", .correction, 5, 40, some "e1", "k2"⟩

/-- A sample offline action over a unit payload. -/
def sampleAction : OfflineAction Unit := ⟨"a1", "create_event", (), 0, none⟩

/-- A typical uniqueness-violation error message. -/
def sampleDupMessage : String := "duplicate key value violates unique constraint"

/-- A replay that always fails with the uniqueness-violation message. -/
def sampleDupProcess : String → Unit → SyncResult :=
  fun _ _ => classifyError (some sampleDupMessage)

/-! ## Theorems -/

/-- Helper: dropping while a predicate holds everywhere empties the list. -/
lemma dropWhile_all_eq_nil {l : List Char} (p : Char → Bool)
    (h : ∀ c ∈ l, p c = true) : l.dropWhile p = [] := by
  induction l with
  | nil => rfl
  | cons a t ih =>
    rw [List.dropWhile_cons]
    simp only [h a (List.mem_cons_self a t), if_true]
    exact ih fun c hc => h c (List.mem_cons_of_mem a hc)

/-- Helper: a string of JS whitespace trims to the empty string. -/
lemma jsTrim_eq_empty {s : String} (h : ∀ c ∈ s.data, jsWhitespaceChar c = true) :
    jsTrim s = "" := by
  unfold jsTrim
  rw [dropWhile_all_eq_nil jsWhitespaceChar h]
  rfl

/-- C10: searching a blank (empty or all-whitespace) query short-circuits —
for every environment and options value the result is empty lists with
`isISBNQuery = false`, and the call log is empty: neither the local book
repository nor any external adapter is invoked. -/
theorem searchBooks_blank_query (env : SearchEnv) (options : SearchOptions)
    (query : String) (h : ∀ c ∈ query.data, jsWhitespaceChar c = true) :
    searchBooks env query options = (⟨[], [], false⟩, []) := by
  unfold searchBooks
  rw [jsTrim_eq_empty h]
  simp

/-- C10 witness: a concrete whitespace-only query. -/
theorem searchBooks_blank_query_witness :
    searchBooks emptySearchEnv " \t " {} = (⟨[], [], false⟩, []) :=
  searchBooks_blank_query emptySearchEnv {} " \t " (by decide)

/-- Helper: ISBN dedup output is a subsequence of its input. -/
lemma dedupISBNGo_sublist (seen : List String) (l : List BookCandidate) :
    (dedupISBNGo seen l).Sublist l := by
  induction l generalizing seen with
  | nil => simp [dedupISBNGo]
  | cons c rest ih =>
    unfold dedupISBNGo
    match hk : isbnKey c with
    | none => exact (ih seen).cons₂ c
    | some isbn =>
      by_cases hmem : isbn ∈ seen
      · simp only [hmem, if_true]
        exact (ih seen).cons c
      · simp only [hmem, if_false]
        exact (ih (isbn :: seen)).cons₂ c

/-- Helper: candidates whose dedup key is falsy pass through ISBN dedup. -/
lemma dedupISBNGo_filter_falsy (p : BookCandidate → Bool)
    (hp : ∀ c, p c = true → isbnKey c = none)
    (seen : List String) (l : List BookCandidate) :
    (dedupISBNGo seen l).filter p = l.filter p := by
  induction l generalizing seen with
  | nil => simp [dedupISBNGo]
  | cons c rest ih =>
    unfold dedupISBNGo
    match hk : isbnKey c with
    | none => simp only [List.filter_cons]; rw [ih seen]
    | some isbn =>
      have hpc : p c = false := by
        cases hpc : p c with
        | false => rfl
        | true => rw [hp c hpc] at hk; exact absurd hk (by simp)
      by_cases hmem : isbn ∈ seen
      · simp only [hmem, if_true]
        rw [ih seen, List.filter_cons, hpc]
        simp
      · simp only [hmem, if_false, List.filter_cons, hpc]
        exact ih (isbn :: seen)

/-- Helper: for a truthy dedup key, ISBN dedup keeps exactly the first
occurrence (none at all if the key was already seen). -/
lemma dedupISBNGo_filter_key (s : String) (seen : List String)
    (l : List BookCandidate) :
    (dedupISBNGo seen l).filter (fun c => isbnKey c == some s) =
      if s ∈ seen then [] else (l.find? (fun c => isbnKey c == some s)).toList := by
  induction l generalizing seen with
  | nil => simp [dedupISBNGo]
  | cons c rest ih =>
    unfold dedupISBNGo
    match hk : isbnKey c with
    | none =>
      have hpc : (isbnKey c == some s) = false := by simp [hk]
      rw [List.filter_cons, hpc]
      simp only [if_neg (by simp : ¬(false = true))]
      rw [ih seen, List.find?_cons, hpc]
    | some isbn =>
      by_cases hs : isbn = s
      · subst hs
        have hpc : (isbnKey c == some isbn) = true := by simp [hk]
        by_cases hmem : isbn ∈ seen
        · simp only [hmem, if_true]
          rw [ih seen]
          simp [hmem]
        · simp only [hmem, if_false, List.filter_cons, hpc, if_pos rfl]
          rw [ih (isbn :: seen)]
          simp [List.find?_cons, hpc]
      · have hpc : (isbnKey c == some s) = false := by simp [hk, hs]
        by_cases hmem : isbn ∈ seen
        · simp only [hmem, if_true]
          rw [ih seen, List.find?_cons, hpc]
        · simp only [hmem, if_false, List.filter_cons, hpc]
          simp only [if_neg (by simp : ¬(false = true))]
          rw [ih (isbn :: seen), List.find?_cons, hpc]
          have hiff : (s ∈ isbn :: seen) ↔ (s ∈ seen) := by
            constructor
            · intro h
              rcases List.mem_cons.mp h with h1 | h1
              · exact absurd h1.symm hs
              · exact h1
            · exact fun h => List.mem_cons_of_mem _ h
          simp [hiff]

/-- C9: `deduplicateByISBN` keeps every candidate whose `isbn13` and
`isbn10` are both null — such candidates are never collapsed (the filter
of ISBN-less candidates is preserved verbatim, so several may coexist);
the output is a subsequence of the input; and for each truthy ISBN key
(isbn13 preferred, else isbn10) exactly the first occurrence survives. -/
theorem deduplicateByISBN_spec (l : List BookCandidate) :
    ((deduplicateByISBN l).filter (fun c => c.isbn13.isNone && c.isbn10.isNone) =
      l.filter (fun c => c.isbn13.isNone && c.isbn10.isNone)) ∧
    (deduplicateByISBN l).Sublist l ∧
    (∀ s : String, (deduplicateByISBN l).filter (fun c => isbnKey c == some s) =
      (l.find? (fun c => isbnKey c == some s)).toList) := by
  refine ⟨?_, dedupISBNGo_sublist [] l, ?_⟩
  · apply dedupISBNGo_filter_falsy
    intro c hc
    simp only [Bool.and_eq_true, Option.isNone_iff_eq_none] at hc
    simp [isbnKey, hc.1, hc.2]
  · intro s
    unfold deduplicateByISBN
    rw [dedupISBNGo_filter_key s [] l]
    simp

/-- Helper: candidates of one fixed region priority keep their relative
order through `rankByRegion` (stability of the sort). -/
lemma rankByRegion_filter_stable (l : List BookCandidate) (p : Nat) :
    (rankByRegion l).filter (fun c => REGION_PRIORITY c.region_hint == p) =
      l.filter (fun c => REGION_PRIORITY c.region_hint == p) := by
  set pf : BookCandidate → Bool := fun c => REGION_PRIORITY c.region_hint == p with hpf
  have hpair : (l.filter pf).Pairwise regionLE := by
    apply List.pairwise_of_forall_mem_list
    intro a ha b hb
    have ha' := (List.mem_filter.mp ha).2
    have hb' := (List.mem_filter.mp hb).2
    simp only [hpf, beq_iff_eq] at ha' hb'
    unfold regionLE
    rw [ha', hb']
  have hsub : (l.filter pf).Sublist (rankByRegion l) :=
    List.sublist_insertionSort hpair (List.filter_sublist l)
  have hself : (l.filter pf).filter pf = l.filter pf :=
    List.filter_eq_self.mpr (fun a ha => (List.mem_filter.mp ha).2)
  have hsub2 : (l.filter pf).Sublist ((rankByRegion l).filter pf) := by
    have h1 := List.Sublist.filter pf hsub
    rwa [hself] at h1
  have hlen : ((rankByRegion l).filter pf).length = (l.filter pf).length :=
    ((List.perm_insertionSort regionLE l).filter pf).length_eq
  exact (hsub2.eq_of_length hlen.symm).symm

/-- C6: `rankByRegion` returns a permutation of its input (no candidate
added or removed) sorted ascending by the fixed region priority
HK 1 < TW 2 < CN 3 < EN 4 < OTHER 5 < null 6; candidates of equal priority
keep their input (merge-step) order; and inputs with region hints
[OTHER, HK, CN, TW, null] come out ordered [HK, TW, CN, OTHER, null]. -/
theorem rankByRegion_spec (l : List BookCandidate) :
    (rankByRegion l).Perm l ∧
    List.Sorted regionLE (rankByRegion l) ∧
    (∀ p : Nat,
      (rankByRegion l).filter (fun c => REGION_PRIORITY c.region_hint == p) =
        l.filter (fun c => REGION_PRIORITY c.region_hint == p)) ∧
    (rankByRegion [regionOnlyCandidate (some .OTHER), regionOnlyCandidate (some .HK),
        regionOnlyCandidate (some .CN), regionOnlyCandidate (some .TW),
        regionOnlyCandidate none]).map BookCandidate.region_hint =
      [some .HK, some .TW, some .CN, some .OTHER, none] :=
  ⟨List.perm_insertionSort regionLE l,
   List.sorted_insertionSort regionLE l,
   fun p => rankByRegion_filter_stable l p,
   by decide⟩

/-- Helper: looking up after a `Map.set`. -/
lemma lookupKey_setKey (k k' : String) (v : BookCandidate)
    (s : List (String × BookCandidate)) :
    lookupKey k (setKey k' v s) = if k' = k then some v else lookupKey k s := by
  induction s with
  | nil => simp [setKey, lookupKey]
  | cons p rest ih =>
    obtain ⟨k₀, v₀⟩ := p
    by_cases h0 : k₀ = k'
    · subst h0
      simp only [setKey, if_pos rfl, lookupKey]
      by_cases hk : k₀ = k
      · simp [hk]
      · simp [hk]
    · simp only [setKey, if_neg h0, lookupKey]
      by_cases hk : k₀ = k
      · subst hk
        have : ¬(k' = k₀) := fun h => h0 h.symm
        simp [this]
      · simp [hk, ih]

/-- Helper: the survivor fold absorbs a head with no stored value yet. -/
lemma dedupGroupFold_none_cons (c : BookCandidate) (g : List BookCandidate) :
    dedupGroupFold none (c :: g) = dedupGroupFold (some c) g := rfl

/-- Helper: the survivor fold absorbs a head into a stored value. -/
lemma dedupGroupFold_some_cons (v c : BookCandidate) (g : List BookCandidate) :
    dedupGroupFold (some v) (c :: g) = dedupGroupFold (some (scoreStep v c)) g := rfl

/-- Helper: the association at key `k` after the title-dedup loop is the
survivor fold of the key-`k` group, continued from what `seen` stored. -/
lemma dedupTitleGo_lookup (l : List BookCandidate)
    (seen : List (String × BookCandidate)) (k : String) :
    lookupKey k (dedupTitleGo seen l) =
      dedupGroupFold (lookupKey k seen)
        (l.filter (fun c => normTitleKey c.title == k)) := by
  induction l generalizing seen with
  | nil =>
    simp only [dedupTitleGo, List.filter_nil]
    cases lookupKey k seen <;> rfl
  | cons c rest ih =>
    simp only [dedupTitleGo, List.filter_cons]
    by_cases hk : normTitleKey c.title = k
    · subst hk
      simp only [beq_self_eq_true, if_true]
      cases hlook : lookupKey (normTitleKey c.title) seen with
      | none =>
        dsimp only
        rw [ih, lookupKey_setKey, if_pos rfl, dedupGroupFold_none_cons]
      | some existing =>
        dsimp only
        by_cases hscore : metadataScore existing < metadataScore c
        · rw [if_pos hscore, ih, lookupKey_setKey, if_pos rfl,
            dedupGroupFold_some_cons]
          simp only [scoreStep, if_pos hscore]
        · rw [if_neg hscore, ih, hlook, dedupGroupFold_some_cons]
          simp only [scoreStep, if_neg hscore]
    · have hpc : (normTitleKey c.title == k) = false := by simp [hk]
      rw [hpc]
      simp only [Bool.false_eq_true, if_false]
      cases hlook : lookupKey (normTitleKey c.title) seen with
      | none =>
        dsimp only
        rw [ih, lookupKey_setKey, if_neg hk]
      | some existing =>
        dsimp only
        by_cases hscore : metadataScore existing < metadataScore c
        · rw [if_pos hscore, ih, lookupKey_setKey, if_neg hk]
        · rw [if_neg hscore, ih]

/-- Helper: every stored pair of the dedup map keys its value's normalized
title. -/
lemma setKey_keysMatch (k : String) (v : BookCandidate)
    (s : List (String × BookCandidate)) (hv : normTitleKey v.title = k)
    (hm : ∀ p ∈ s, normTitleKey p.2.title = p.1) :
    ∀ p ∈ setKey k v s, normTitleKey p.2.title = p.1 := by
  induction s with
  | nil =>
    intro p hp
    simp only [setKey, List.mem_singleton] at hp
    subst hp
    exact hv
  | cons q rest ih =>
    obtain ⟨k₀, v₀⟩ := q
    intro p hp
    by_cases h0 : k₀ = k
    · simp only [setKey, if_pos h0] at hp
      rcases List.mem_cons.mp hp with h | h
      · subst h; exact hv
      · exact hm _ (List.mem_cons_of_mem _ h)
    · simp only [setKey, if_neg h0] at hp
      rcases List.mem_cons.mp hp with h | h
      · subst h; exact hm _ (List.mem_cons_self _ _)
      · exact ih (fun q hq => hm q (List.mem_cons_of_mem _ hq)) p h

/-- Helper: the key-value discipline is an invariant of the dedup loop. -/
lemma dedupTitleGo_keysMatch (l : List BookCandidate)
    (seen : List (String × BookCandidate))
    (hm : ∀ p ∈ seen, normTitleKey p.2.title = p.1) :
    ∀ p ∈ dedupTitleGo seen l, normTitleKey p.2.title = p.1 := by
  induction l generalizing seen with
  | nil => exact hm
  | cons c rest ih =>
    simp only [dedupTitleGo]
    cases hlook : lookupKey (normTitleKey c.title) seen with
    | none =>
      dsimp only
      exact ih _ (setKey_keysMatch _ _ _ rfl hm)
    | some existing =>
      dsimp only
      by_cases hscore : metadataScore existing < metadataScore c
      · rw [if_pos hscore]
        exact ih _ (setKey_keysMatch _ _ _ rfl hm)
      · rw [if_neg hscore]
        exact ih _ hm

/-- Helper: finding in the value list equals association lookup, given the
key-value discipline. -/
lemma find?_map_snd (s : List (String × BookCandidate)) (k : String)
    (hm : ∀ p ∈ s, normTitleKey p.2.title = p.1) :
    (s.map Prod.snd).find? (fun c => normTitleKey c.title == k) =
      lookupKey k s := by
  induction s with
  | nil => rfl
  | cons p rest ih =>
    obtain ⟨k₀, v₀⟩ := p
    have hk₀ : normTitleKey v₀.title = k₀ := hm _ (List.mem_cons_self _ _)
    simp only [List.map_cons, List.find?_cons, lookupKey]
    by_cases h : k₀ = k
    · have : (normTitleKey v₀.title == k) = true := by simp [hk₀, h]
      rw [this]
      simp [h]
    · have : (normTitleKey v₀.title == k) = false := by simp [hk₀, h]
      rw [this]
      simp only [h, if_false]
      exact ih (fun q hq => hm q (List.mem_cons_of_mem _ hq))

/-- C8: under score ties title dedup keeps the earlier candidate. The
survivor of each normalized-title group is the left fold `keptCandidate`,
which replaces the current best only on a strictly greater metadata score;
in particular, of two candidates sharing a key, the earlier is kept when
the later does not score strictly higher, and the later wins otherwise. -/
theorem dedupTitle_survivor (l : List BookCandidate) (k : String) :
    ((deduplicateByTitle l).find? (fun c => normTitleKey c.title == k) =
      keptCandidate (l.filter (fun c => normTitleKey c.title == k))) ∧
    (∀ a b : BookCandidate, normTitleKey b.title = normTitleKey a.title →
      metadataScore b ≤ metadataScore a → deduplicateByTitle [a, b] = [a]) ∧
    (∀ a b : BookCandidate, normTitleKey b.title = normTitleKey a.title →
      metadataScore a < metadataScore b → deduplicateByTitle [a, b] = [b]) := by
  refine ⟨?_, ?_, ?_⟩
  · unfold deduplicateByTitle
    rw [find?_map_snd _ _ (dedupTitleGo_keysMatch l [] (by intro p hp; simp at hp))]
    rw [dedupTitleGo_lookup]
    rfl
  · intro a b hk hle
    have hlook : lookupKey (normTitleKey b.title) [(normTitleKey a.title, a)] =
        some a := by
      simp [lookupKey, hk]
    calc deduplicateByTitle [a, b]
        = (dedupTitleGo [(normTitleKey a.title, a)] [b]).map Prod.snd := rfl
      _ = (dedupTitleGo [(normTitleKey a.title, a)] []).map Prod.snd := by
          simp only [dedupTitleGo]
          rw [hlook]
          dsimp only
          rw [if_neg (Nat.not_lt.mpr hle)]
      _ = [a] := rfl
  · intro a b hk hlt
    have hlook : lookupKey (normTitleKey b.title) [(normTitleKey a.title, a)] =
        some a := by
      simp [lookupKey, hk]
    have hset : setKey (normTitleKey b.title) b [(normTitleKey a.title, a)] =
        [(normTitleKey b.title, b)] := by
      simp [setKey, hk]
    calc deduplicateByTitle [a, b]
        = (dedupTitleGo [(normTitleKey a.title, a)] [b]).map Prod.snd := rfl
      _ = (dedupTitleGo (setKey (normTitleKey b.title) b
            [(normTitleKey a.title, a)]) []).map Prod.snd := by
          simp only [dedupTitleGo]
          rw [hlook]
          dsimp only
          rw [if_pos hlt]
      _ = [b] := by rw [hset]; rfl

/-- C8 witness: "dream of the red chamber!!" (score 1) followed by
"Dream of the Red Chamber" (score 0) keeps the earlier, better one. -/
theorem dedupTitle_survivor_witness :
    deduplicateByTitle [dreamNoisy, dreamPlain] = [dreamNoisy] :=
  (dedupTitle_survivor [] "").2.1 dreamNoisy dreamPlain (by decide) (by decide)

/-- Helper: a key is absent exactly when lookup fails. -/
lemma lookupKey_eq_none_iff (k : String) (s : List (String × BookCandidate)) :
    lookupKey k s = none ↔ k ∉ s.map Prod.fst := by
  induction s with
  | nil => simp [lookupKey]
  | cons p rest ih =>
    obtain ⟨k₀, v₀⟩ := p
    by_cases h : k₀ = k
    · subst h
      simp [lookupKey]
    · have hne : ¬(k = k₀) := fun hk => h hk.symm
      simp only [lookupKey, if_neg h, ih, List.map_cons, List.mem_cons, not_or]
      simp [hne]

/-- Helper: `Map.set` leaves the key list unchanged when the key is
present and appends it otherwise. -/
lemma setKey_keys (k : String) (v : BookCandidate)
    (s : List (String × BookCandidate)) :
    (setKey k v s).map Prod.fst =
      if k ∈ s.map Prod.fst then s.map Prod.fst else s.map Prod.fst ++ [k] := by
  induction s with
  | nil => simp [setKey]
  | cons p rest ih =>
    obtain ⟨k₀, v₀⟩ := p
    by_cases h : k₀ = k
    · subst h
      simp [setKey]
    · have hne : ¬(k = k₀) := fun hk => h hk.symm
      simp only [setKey, if_neg h, List.map_cons, ih]
      by_cases hmem : k ∈ rest.map Prod.fst
      · rw [if_pos hmem, if_pos (List.mem_cons_of_mem k₀ hmem)]
      · rw [if_neg hmem]
        have hnotin : k ∉ k₀ :: rest.map Prod.fst := by
          intro hx
          rcases List.mem_cons.mp hx with h1 | h1
          · exact hne h1
          · exact hmem h1
        rw [if_neg hnotin]
        simp

/-- Helper: distinctness of stored keys is an invariant of the dedup
loop. -/
lemma dedupTitleGo_keysNodup (l : List BookCandidate)
    (seen : List (String × BookCandidate))
    (hn : (seen.map Prod.fst).Nodup) :
    ((dedupTitleGo seen l).map Prod.fst).Nodup := by
  induction l generalizing seen with
  | nil => exact hn
  | cons c rest ih =>
    simp only [dedupTitleGo]
    cases hlook : lookupKey (normTitleKey c.title) seen with
    | none =>
      dsimp only
      apply ih
      rw [setKey_keys]
      rw [lookupKey_eq_none_iff] at hlook
      rw [if_neg hlook, List.nodup_append]
      refine ⟨hn, List.nodup_singleton _, ?_⟩
      intro x hx hx'
      rw [List.mem_singleton] at hx'
      exact hlook (hx' ▸ hx)
    | some existing =>
      dsimp only
      by_cases hscore : metadataScore existing < metadataScore c
      · rw [if_pos hscore]
        apply ih
        rw [setKey_keys]
        have hmem : normTitleKey c.title ∈ seen.map Prod.fst := by
          by_contra hab
          rw [← lookupKey_eq_none_iff] at hab
          rw [hab] at hlook
          exact Option.noConfusion hlook
        rw [if_pos hmem]
        exact hn
      · rw [if_neg hscore]
        exact ih seen hn

/-- Helper: with distinct keys, membership determines lookup. -/
lemma lookupKey_of_mem (k : String) (v : BookCandidate)
    (s : List (String × BookCandidate)) (hn : (s.map Prod.fst).Nodup)
    (h : (k, v) ∈ s) : lookupKey k s = some v := by
  induction s with
  | nil => simp at h
  | cons p rest ih =>
    obtain ⟨k₀, v₀⟩ := p
    rcases List.mem_cons.mp h with heq | hmem
    · rw [Prod.mk.injEq] at heq
      simp [lookupKey, heq.1, heq.2]
    · have hk : k₀ ≠ k := by
        intro hkk
        subst hkk
        have : k₀ ∈ rest.map Prod.fst :=
          List.mem_map.mpr ⟨(k₀, v), hmem, rfl⟩
        simp only [List.map_cons, List.nodup_cons] at hn
        exact hn.1 this
      simp only [lookupKey, if_neg hk]
      exact ih (by simp only [List.map_cons, List.nodup_cons] at hn; exact hn.2) hmem

/-- Helper: with the key discipline and distinct keys, filtering the value
list by one normalized title key finds at most one entry. -/
lemma filter_assoc_length (s : List (String × BookCandidate)) (k : String)
    (hm : ∀ p ∈ s, normTitleKey p.2.title = p.1)
    (hn : (s.map Prod.fst).Nodup) :
    ((s.map Prod.snd).filter (fun c => normTitleKey c.title == k)).length =
      if k ∈ s.map Prod.fst then 1 else 0 := by
  induction s with
  | nil => simp
  | cons p rest ih =>
    obtain ⟨k₀, v₀⟩ := p
    have hk₀ : normTitleKey v₀.title = k₀ := hm _ (List.mem_cons_self _ _)
    simp only [List.map_cons, List.nodup_cons] at hn
    have ihr := ih (fun q hq => hm q (List.mem_cons_of_mem _ hq)) hn.2
    by_cases h : k₀ = k
    · subst h
      have hpv : (normTitleKey v₀.title == k₀) = true := by simp [hk₀]
      simp only [List.map_cons, List.filter_cons, hpv, eq_self_iff_true,
        if_true, List.length_cons, ihr]
      rw [if_neg hn.1, if_pos (List.mem_cons_self _ _)]
    · have hpv : (normTitleKey v₀.title == k) = false := by simp [hk₀, h]
      have hne : ¬(k = k₀) := fun hk => h hk.symm
      simp only [List.map_cons, List.filter_cons, hpv, Bool.false_eq_true,
        if_false, ihr, List.mem_cons]
      by_cases hmem : k ∈ rest.map Prod.fst
      · rw [if_pos hmem, if_pos (Or.inr hmem)]
      · rw [if_neg hmem]
        have hnotin : ¬(k = k₀ ∨ k ∈ rest.map Prod.fst) := by
          intro hx
          rcases hx with h1 | h1
          · exact hne h1
          · exact hmem h1
        rw [if_neg hnotin]

/-- Helper: the survivor fold lands in the group and dominates every
score, including the seed's. -/
lemma foldl_scoreStep_spec (g : List BookCandidate) (v : BookCandidate) :
    (g.foldl scoreStep v = v ∨ g.foldl scoreStep v ∈ g) ∧
    metadataScore v ≤ metadataScore (g.foldl scoreStep v) ∧
    ∀ d ∈ g, metadataScore d ≤ metadataScore (g.foldl scoreStep v) := by
  induction g generalizing v with
  | nil => exact ⟨Or.inl rfl, Nat.le_refl _, by simp⟩
  | cons d g' ih =>
    obtain ⟨hmem, hseed, hall⟩ := ih (scoreStep v d)
    have hvd : metadataScore v ≤ metadataScore (scoreStep v d) := by
      unfold scoreStep
      by_cases h : metadataScore v < metadataScore d
      · rw [if_pos h]; exact Nat.le_of_lt h
      · rw [if_neg h]
    have hdd : metadataScore d ≤ metadataScore (scoreStep v d) := by
      unfold scoreStep
      by_cases h : metadataScore v < metadataScore d
      · rw [if_pos h]
      · rw [if_neg h]; exact Nat.le_of_not_lt h
    refine ⟨?_, ?_, ?_⟩
    · rw [List.foldl_cons]
      rcases hmem with h | h
      · by_cases hc : metadataScore v < metadataScore d
        · have hs : scoreStep v d = d := by unfold scoreStep; rw [if_pos hc]
          refine Or.inr ?_
          rw [h, hs]
          exact List.mem_cons_self _ _
        · have hs : scoreStep v d = v := by unfold scoreStep; rw [if_neg hc]
          exact Or.inl (h.trans hs)
      · exact Or.inr (List.mem_cons_of_mem _ h)
    · rw [List.foldl_cons]
      exact Nat.le_trans hvd hseed
    · intro e he
      rw [List.foldl_cons]
      rcases List.mem_cons.mp he with h | h
      · rw [h]
        exact Nat.le_trans hdd hseed
      · exact hall e h

/-- Helper: the group survivor belongs to the group and maximizes the
metadata score over it. -/
lemma keptCandidate_spec (g : List BookCandidate) (r : BookCandidate)
    (h : keptCandidate g = some r) :
    r ∈ g ∧ ∀ d ∈ g, metadataScore d ≤ metadataScore r := by
  cases g with
  | nil => simp [keptCandidate] at h
  | cons c rest =>
    simp only [keptCandidate, Option.some.injEq] at h
    obtain ⟨hmem, hseed, hall⟩ := foldl_scoreStep_spec rest c
    subst h
    constructor
    · rcases hmem with h | h
      · rw [h]
        exact List.mem_cons_self _ _
      · exact List.mem_cons_of_mem _ h
    · intro d hd
      rcases List.mem_cons.mp hd with h | h
      · rw [h]
        exact hseed
      · exact hall d h

/-- Helper: the survivor exists exactly for nonempty groups. -/
lemma keptCandidate_eq_none_iff (g : List BookCandidate) :
    keptCandidate g = none ↔ g = [] := by
  cases g <;> simp [keptCandidate]

/-- C7: keyword-mode dedup groups candidates by the normalized title key
(lowercased, punctuation-stripped, CJK-preserving) and keeps exactly one
candidate per key occurring in the input; every kept candidate comes from
the input and maximizes the metadata-completeness score (weights isbn13 2;
author, publisher, publish_year, isbn10, cover, region_hint 1 each) within
its key group; the candidates titled "Dream of the Red Chamber" and
"dream of the red chamber!!" collapse to the higher-scoring one. -/
theorem dedupTitle_one_per_key (l : List BookCandidate) :
    (∀ k : String,
      ((deduplicateByTitle l).filter
          (fun c => normTitleKey c.title == k)).length =
        if l.any (fun c => normTitleKey c.title == k) then 1 else 0) ∧
    (∀ c ∈ deduplicateByTitle l, c ∈ l ∧
      ∀ d ∈ l, normTitleKey d.title = normTitleKey c.title →
        metadataScore d ≤ metadataScore c) ∧
    deduplicateByTitle [dreamPlain, dreamNoisy] = [dreamNoisy] := by
  have hm := dedupTitleGo_keysMatch l [] (by intro p hp; simp at hp)
  have hn := dedupTitleGo_keysNodup l [] (by simp)
  refine ⟨?_, ?_, by decide⟩
  · intro k
    unfold deduplicateByTitle
    rw [filter_assoc_length _ _ hm hn]
    have hiff : k ∈ (dedupTitleGo [] l).map Prod.fst ↔
        l.any (fun c => normTitleKey c.title == k) = true := by
      constructor
      · intro hk
        by_contra hab
        have hfil : l.filter (fun c => normTitleKey c.title == k) = [] := by
          rw [List.filter_eq_nil_iff]
          intro a ha hpa
          exact hab (List.any_eq_true.mpr ⟨a, ha, hpa⟩)
        have hnone : lookupKey k (dedupTitleGo [] l) = none := by
          rw [dedupTitleGo_lookup, hfil]
          rfl
        rw [lookupKey_eq_none_iff] at hnone
        exact hnone hk
      · intro hany
        by_contra hab
        rw [← lookupKey_eq_none_iff] at hab
        rw [dedupTitleGo_lookup] at hab
        have hkept : keptCandidate
            (l.filter (fun c => normTitleKey c.title == k)) = none := hab
        rw [keptCandidate_eq_none_iff] at hkept
        rcases List.any_eq_true.mp hany with ⟨x, hx, hpx⟩
        have hxin : x ∈ l.filter (fun c => normTitleKey c.title == k) :=
          List.mem_filter.mpr ⟨hx, hpx⟩
        rw [hkept] at hxin
        simp at hxin
    by_cases hany : l.any (fun c => normTitleKey c.title == k) = true
    · rw [if_pos hany, if_pos (hiff.mpr hany)]
    · rw [if_neg hany, if_neg (fun hk => hany (hiff.mp hk))]
  · intro c hc
    unfold deduplicateByTitle at hc
    rcases List.mem_map.mp hc with ⟨⟨k1, v1⟩, hpr, hsnd⟩
    have hkey : normTitleKey v1.title = k1 := hm _ hpr
    have hlk := lookupKey_of_mem k1 v1 _ hn hpr
    rw [dedupTitleGo_lookup] at hlk
    have hkept : keptCandidate
        (l.filter (fun c' => normTitleKey c'.title == k1)) = some v1 := hlk
    obtain ⟨hmemg, hmax⟩ := keptCandidate_spec _ _ hkept
    have hsnd' : v1 = c := hsnd
    subst hsnd'
    constructor
    · exact (List.mem_filter.mp hmemg).1
    · intro d hd hdk
      apply hmax
      apply List.mem_filter.mpr
      refine ⟨hd, ?_⟩
      simp [hdk, hkey]

/-- C7 witness: the kept Dream-of-the-Red-Chamber candidate comes from the
input and dominates the scores of its title group. -/
theorem dedupTitle_one_per_key_witness :
    dreamNoisy ∈ ([dreamPlain, dreamNoisy] : List BookCandidate) ∧
    ∀ d ∈ ([dreamPlain, dreamNoisy] : List BookCandidate),
      normTitleKey d.title = normTitleKey dreamNoisy.title →
        metadataScore d ≤ metadataScore dreamNoisy :=
  (dedupTitle_one_per_key [dreamPlain, dreamNoisy]).2.1 dreamNoisy (by decide)

/-- C3 counterexample: the code never validates checksums. The query
"1234567890" matches the ISBN-10 pattern but fails the ISBN-10 checksum,
and "abcdefghij" matches no ISBN pattern at all (ten letters); both are
classified as ISBN queries and routed to the per-source ISBN lookups. -/
theorem searchBooks_isbn_routing_counterexample :
    isISBN "1234567890" = true ∧ specISBNQuery "1234567890" = false ∧
    (searchBooks emptySearchEnv "1234567890" {}).2 =
      [SearchCall.localQuery "1234567890",
        SearchCall.isbnLookup .open_library "1234567890",
        SearchCall.isbnLookup .google_books "1234567890"] ∧
    isISBN "abcdefghij" = true ∧ specISBNQuery "abcdefghij" = false ∧
    (searchBooks emptySearchEnv "abcdefghij" {}).2 =
      [SearchCall.localQuery "abcdefghij",
        SearchCall.isbnLookup .open_library "abcdefghij",
        SearchCall.isbnLookup .google_books "abcdefghij"] := by
  decide

/-- Helper: any query the spec's checksum classifier accepts is accepted
by the code's length-based classifier. -/
lemma spec_isbn_implies_isISBN (q : String) (h : specISBNQuery q = true) :
    isISBN q = true := by
  unfold specISBNQuery at h
  rw [Bool.or_eq_true] at h
  unfold isISBN
  rcases h with h | h
  · unfold specIsbn10Valid at h
    simp only [Bool.and_eq_true] at h
    have hlen : ((stripSeparators q).length == 10) = true := h.1.1.1
    simp [hlen]
  · unfold specIsbn13Valid at h
    simp only [Bool.and_eq_true] at h
    have hlen : ((stripSeparators q).length == 13) = true := h.1.1
    simp [hlen]

/-- C3 amended: for a nonempty trimmed query with stage 2 enabled, the
classifier routes to per-source ISBN lookup iff `isISBN` accepts the
trimmed query — the raw query matches the `(?:\d[- ]?){9}[\dXx]` or
`(?:\d[- ]?){13}` pattern, or the separator-stripped query has length
exactly 10 or 13; no checksum is checked. Every other query routes to the
two keyword searches with a limit of 5 results per source, and every
checksum-valid ISBN in the spec's sense does route to ISBN lookup. -/
theorem searchBooks_isbn_routing (env : SearchEnv) (query : String)
    (options : SearchOptions) (hLocal : options.localOnly = false)
    (hq : jsTrim query ≠ "") :
    (searchBooks env query options).1.isISBNQuery = isISBN (jsTrim query) ∧
    (searchBooks env query options).2 =
      (if isISBN (jsTrim query) then
        [SearchCall.localQuery (jsTrim query),
          SearchCall.isbnLookup .open_library (jsTrim query),
          SearchCall.isbnLookup .google_books (jsTrim query)]
      else
        [SearchCall.localQuery (jsTrim query),
          SearchCall.keywordLookup .open_library (jsTrim query) 5,
          SearchCall.keywordLookup .google_books (jsTrim query) 5]) ∧
    (specISBNQuery (jsTrim query) = true → isISBN (jsTrim query) = true) := by
  unfold searchBooks
  rw [if_neg hq]
  simp only [hLocal, Bool.false_eq_true, if_false]
  by_cases hisbn : isISBN (jsTrim query) = true
  · simp only [hisbn, if_true]
    refine ⟨?_, ?_, ?_⟩ <;> simp
  · have hisbn' : isISBN (jsTrim query) = false := by
      cases h : isISBN (jsTrim query)
      · rfl
      · exact absurd h hisbn
    simp only [hisbn', Bool.false_eq_true, if_false]
    refine ⟨?_, ?_, ?_⟩
    · simp
    · simp
    · intro hspec
      have hsp := spec_isbn_implies_isISBN _ hspec
      rw [hisbn'] at hsp
      exact absurd hsp (by simp)

/-- C3 amended witness: a plain keyword query. -/
theorem searchBooks_isbn_routing_witness :
    (searchBooks emptySearchEnv "hello" {}).1.isISBNQuery =
      isISBN (jsTrim "hello") ∧
    (searchBooks emptySearchEnv "hello" {}).2 =
      (if isISBN (jsTrim "hello") then
        [SearchCall.localQuery (jsTrim "hello"),
          SearchCall.isbnLookup .open_library (jsTrim "hello"),
          SearchCall.isbnLookup .google_books (jsTrim "hello")]
      else
        [SearchCall.localQuery (jsTrim "hello"),
          SearchCall.keywordLookup .open_library (jsTrim "hello") 5,
          SearchCall.keywordLookup .google_books (jsTrim "hello") 5]) ∧
    (specISBNQuery (jsTrim "hello") = true → isISBN (jsTrim "hello") = true) :=
  searchBooks_isbn_routing emptySearchEnv "hello" {} rfl (by decide)

/-- Helper: one sync pass on a queue holding only an always-retryable
action bumps its retry count, and drops it once the count reaches the
cap. -/
lemma syncOnce_retry_step {π : Type} (process : String → π → SyncResult)
    (a : OfflineAction π) (h : process a.type a.payload = .retry)
    (h0 : a.retries = none) (k : Nat) :
    syncOfflineQueueOnce process [retriedAction a k] =
      if k + 1 < MAX_RETRIES then [retriedAction a (k + 1)] else [] := by
  cases k with
  | zero =>
    show syncLoop process [a] [a] = _
    unfold syncLoop
    rw [h]
    dsimp only
    rw [h0]
    simp [updateActionRetries, removeFromOfflineQueue, MAX_RETRIES, retriedAction]
  | succ n =>
    show syncLoop process [{ a with retries := some (n + 1) }]
      [{ a with retries := some (n + 1) }] = _
    unfold syncLoop
    dsimp only
    rw [h]
    dsimp only
    simp only [Option.getD_some]
    by_cases hc : n + 1 + 1 < MAX_RETRIES
    · rw [if_pos hc, if_neg (by omega : ¬(MAX_RETRIES ≤ n + 1 + 1))]
      simp [updateActionRetries, retriedAction]
    · rw [if_neg hc, if_pos (by omega : MAX_RETRIES ≤ n + 1 + 1)]
      simp [updateActionRetries, removeFromOfflineQueue]

/-- C4: an action whose every replay attempt is classified retryable has
its retry count incremented once per pass, stays queued through the first
`MAX_RETRIES - 1` attempts, is removed by exactly the `MAX_RETRIES`-th
(fifth) pass, and is never attempted again afterwards. -/
theorem syncRetry_discard_after_cap {π : Type}
    (process : String → π → SyncResult) (a : OfflineAction π)
    (h : process a.type a.payload = .retry) (h0 : a.retries = none) :
    (∀ k, k < MAX_RETRIES →
      (syncOfflineQueueOnce process)^[k] [a] = [retriedAction a k]) ∧
    (∀ k, MAX_RETRIES ≤ k → (syncOfflineQueueOnce process)^[k] [a] = []) := by
  have hstep := syncOnce_retry_step process a h h0
  have hlt : ∀ k, k < MAX_RETRIES →
      (syncOfflineQueueOnce process)^[k] [a] = [retriedAction a k] := by
    intro k
    induction k with
    | zero => intro _; rfl
    | succ n ih =>
      intro hk
      rw [Function.iterate_succ_apply', ih (Nat.lt_of_succ_lt hk), hstep n,
        if_pos hk]
  refine ⟨hlt, ?_⟩
  have h5 : (syncOfflineQueueOnce process)^[MAX_RETRIES] [a] = [] := by
    rw [show MAX_RETRIES = 4 + 1 from rfl, Function.iterate_succ_apply',
      hlt 4 (by decide), hstep 4, if_neg (by decide)]
  intro k hk
  obtain ⟨m, rfl⟩ := Nat.exists_eq_add_of_le hk
  rw [Nat.add_comm, Function.iterate_add_apply, h5]
  exact Function.iterate_fixed rfl m

/-- C4 witness: a concrete always-retryable action is gone after exactly
five passes. -/
theorem syncRetry_discard_after_cap_witness :
    (syncOfflineQueueOnce (fun _ (_ : Unit) => SyncResult.retry))^[MAX_RETRIES]
      [sampleAction] = [] ∧
    (syncOfflineQueueOnce (fun _ (_ : Unit) => SyncResult.retry))^[4]
      [sampleAction] = [retriedAction sampleAction 4] :=
  ⟨(syncRetry_discard_after_cap _ sampleAction rfl rfl).2 MAX_RETRIES
      (Nat.le_refl _),
    (syncRetry_discard_after_cap _ sampleAction rfl rfl).1 4 (by decide)⟩

/-- Helper: removal only shrinks the stored queue. -/
lemma removeFromOfflineQueue_subset {π : Type} (x : String)
    (q : List (OfflineAction π)) : ∀ b ∈ removeFromOfflineQueue x q, b ∈ q :=
  fun b hb => (List.mem_filter.mp hb).1

/-- Helper: a sync pass never reintroduces an id absent from the stored
queue. -/
lemma syncLoop_id_free {π : Type} (process : String → π → SyncResult)
    (x : String) (snapshot : List (OfflineAction π)) :
    ∀ stored : List (OfflineAction π), (∀ b ∈ stored, b.id ≠ x) →
      ∀ b ∈ syncLoop process snapshot stored, b.id ≠ x := by
  induction snapshot with
  | nil => intro stored h; exact h
  | cons a rest ih =>
    intro stored h
    simp only [syncLoop]
    cases hp : process a.type a.payload with
    | success =>
      dsimp only
      exact ih _ (fun b hb => h b (removeFromOfflineQueue_subset _ _ b hb))
    | discard =>
      dsimp only
      exact ih _ (fun b hb => h b (removeFromOfflineQueue_subset _ _ b hb))
    | retry =>
      dsimp only
      have hup : ∀ b ∈ updateActionRetries a.id ((a.retries.getD 0) + 1) stored,
          b.id ≠ x := by
        intro b hb
        rcases List.mem_map.mp hb with ⟨b₀, hb₀, hbe⟩
        have hid : b.id = b₀.id := by
          rw [← hbe]
          split_ifs <;> rfl
        rw [hid]
        exact h b₀ hb₀
      by_cases hcap : MAX_RETRIES ≤ (a.retries.getD 0) + 1
      · rw [if_pos hcap]
        exact fun b hb => hup b (removeFromOfflineQueue_subset _ _ b hb)
      · rw [if_neg hcap]
        exact hup

/-- C5: a replay failing with a uniqueness/duplicate-key message is
classified success; the pass removes the action from the stored queue and
moves on to the rest of the snapshot — its retry count is never touched
(the action is gone), it is not retried, and no action with its id
survives the pass. -/
theorem uniqueViolation_treated_success {π : Type}
    (process : String → π → SyncResult) (msg : String)
    (hdup : containsSub (msg.data.map jsToLower) ("duplicate key".data) = true ∨
      containsSub (msg.data.map jsToLower) ("unique".data) = true)
    (a : OfflineAction π) (rest stored : List (OfflineAction π))
    (hp : process a.type a.payload = classifyError (some msg)) :
    classifyError (some msg) = .success ∧
    syncLoop process (a :: rest) stored =
      syncLoop process rest (removeFromOfflineQueue a.id stored) ∧
    ∀ b ∈ syncLoop process (a :: rest) stored, b.id ≠ a.id := by
  have hcls : classifyError (some msg) = .success := by
    unfold classifyError
    dsimp only
    rcases hdup with h | h <;> simp [h]
  have hloop : syncLoop process (a :: rest) stored =
      syncLoop process rest (removeFromOfflineQueue a.id stored) := by
    simp only [syncLoop]
    rw [hp, hcls]
  refine ⟨hcls, hloop, ?_⟩
  rw [hloop]
  apply syncLoop_id_free
  intro b hb
  have hmf := List.mem_filter.mp hb
  simpa using hmf.2

/-- C5 witness: a concrete duplicate-key failure at the head of a
singleton queue. -/
theorem uniqueViolation_treated_success_witness :
    classifyError (some sampleDupMessage) = SyncResult.success ∧
    syncLoop sampleDupProcess [sampleAction] [sampleAction] =
      syncLoop sampleDupProcess []
        (removeFromOfflineQueue sampleAction.id [sampleAction]) ∧
    ∀ b ∈ syncLoop sampleDupProcess [sampleAction] [sampleAction],
      b.id ≠ sampleAction.id :=
  uniqueViolation_treated_success sampleDupProcess sampleDupMessage
    (Or.inl (by decide)) sampleAction [] [sampleAction] rfl

/-- Helper: a duplicate-free store has at most one row per
(owner, client_event_id) pair. -/
lemma keyUnique_filter_le_one (store : List EventRow) (hU : KeyUnique store)
    (u ck : String) :
    (store.filter (fun r =>
      r.user_id == u && r.client_event_id == ck)).length ≤ 1 := by
  induction store with
  | nil => simp
  | cons r rest ih =>
    rw [KeyUnique, List.pairwise_cons] at hU
    rw [List.filter_cons]
    by_cases hr : (r.user_id == u && r.client_event_id == ck) = true
    · rw [if_pos hr]
      have hnil : rest.filter (fun r' =>
          r'.user_id == u && r'.client_event_id == ck) = [] := by
        rw [List.filter_eq_nil_iff]
        intro a ha hpa
        rw [Bool.and_eq_true, beq_iff_eq, beq_iff_eq] at hr hpa
        exact hU.1 a ha ⟨hr.1.trans hpa.1.symm, hr.2.trans hpa.2.symm⟩
      rw [hnil]
      simp
    · rw [if_neg hr]
      exact ih hU.2

/-- Helper: a successful insert appends the row, and no stored row shared
the new row's (owner, client_event_id) pair. -/
lemma insertReadingEvent_ok {store store' : List EventRow} {e : EventRow}
    (h : insertReadingEvent store e = .ok store') :
    store' = store ++ [e] ∧
    ∀ r ∈ store, ¬(r.user_id = e.user_id ∧ r.client_event_id = e.client_event_id) := by
  unfold insertReadingEvent at h
  by_cases h1 : (store.any fun r =>
      r.user_id == e.user_id && r.client_event_id == e.client_event_id) = true
  · rw [if_pos h1] at h
    exact Except.noConfusion h
  · rw [if_neg h1] at h
    by_cases h2 : (!rowChecksOK e) = true
    · rw [if_pos h2] at h
      exact Except.noConfusion h
    · rw [if_neg h2] at h
      refine ⟨(Except.ok.inj h).symm, ?_⟩
      intro r hr hre
      exact h1 (List.any_eq_true.mpr ⟨r, hr, by simp [hre.1, hre.2]⟩)

/-- Helper: a successful insert preserves the uniqueness invariant. -/
lemma insertReadingEvent_keyUnique {store store' : List EventRow}
    {e : EventRow} (hU : KeyUnique store)
    (h : insertReadingEvent store e = .ok store') : KeyUnique store' := by
  obtain ⟨heq, hnew⟩ := insertReadingEvent_ok h
  subst heq
  rw [KeyUnique, List.pairwise_append]
  refine ⟨hU, List.pairwise_singleton _ _, ?_⟩
  intro a ha b hb
  rw [List.mem_singleton] at hb
  subst hb
  exact hnew a ha

/-- C1: the event store never holds two rows with the same
(owner, client_event_id) pair — the index-guarded insert and
`createReadingEvent` preserve the uniqueness invariant, and re-submitting
with an already-used idempotency key is rejected: the call returns null,
the store is unchanged, and exactly one stored row carries that key. -/
theorem appendEvent_idempotent (store : List EventRow) (hU : KeyUnique store)
    (user bookId : String) (etype : EventType) (completion : Int)
    (freshId ck : String) (now : Nat) :
    (∀ (e : EventRow) (store' : List EventRow),
      insertReadingEvent store e = .ok store' → KeyUnique store') ∧
    KeyUnique (createReadingEvent store (some user) bookId etype completion
      freshId ck now).2 ∧
    ((∃ r ∈ store, r.user_id = user ∧ r.client_event_id = ck) →
      createReadingEvent store (some user) bookId etype completion freshId ck
        now = (none, store) ∧
      (store.filter (fun r =>
        r.user_id == user && r.client_event_id == ck)).length = 1) := by
  refine ⟨fun e store' h => insertReadingEvent_keyUnique hU h, ?_, ?_⟩
  · unfold createReadingEvent
    dsimp only
    cases hins : insertReadingEvent store
        { id := freshId, user_id := user, book_id := bookId,
          event_type := etype, occurred_at := now, completion := completion,
          target_event_id := none, client_event_id := ck } with
    | ok s' =>
      dsimp only
      exact insertReadingEvent_keyUnique hU hins
    | error err =>
      dsimp only
      exact hU
  · rintro ⟨r, hr, hrk⟩
    have hany : store.any (fun r' =>
        r'.user_id == user && r'.client_event_id == ck) = true :=
      List.any_eq_true.mpr ⟨r, hr, by simp [hrk.1, hrk.2]⟩
    have hins : insertReadingEvent store
        { id := freshId, user_id := user, book_id := bookId,
          event_type := etype, occurred_at := now, completion := completion,
          target_event_id := none, client_event_id := ck } =
        .error .uniqueViolation := by
      unfold insertReadingEvent
      rw [if_pos hany]
    constructor
    · unfold createReadingEvent
      dsimp only
      rw [hins]
    · refine Nat.le_antisymm (keyUnique_filter_le_one store hU user ck) ?_
      have hmem : r ∈ store.filter (fun r' =>
          r'.user_id == user && r'.client_event_id == ck) :=
        List.mem_filter.mpr ⟨hr, by simp [hrk.1, hrk.2]⟩
      have hne := List.ne_nil_of_mem hmem
      exact Nat.one_le_iff_ne_zero.mpr
        (fun h0 => hne (List.length_eq_zero.mp h0))

/-- C1 witness: re-submitting the key "k" of the stored sample row. -/
theorem appendEvent_idempotent_witness :
    createReadingEvent [sampleEventRow] (some "u") "b" EventType.finished 100
      "e2" "k" 5 = (none, [sampleEventRow]) ∧
    (([sampleEventRow]).filter (fun r =>
      r.user_id == "u" && r.client_event_id == "k")).length = 1 :=
  (appendEvent_idempotent [sampleEventRow] (by simp [KeyUnique]) "u" "b"
    EventType.finished 100 "e2" "k" 5).2.2
    ⟨sampleEventRow, by simp, by simp [sampleEventRow], by simp [sampleEventRow]⟩

/-- Helper: shape of a successful `correctEvent`: the store grows by
exactly the returned correction row, whose type, target, owner and id are
determined, and the target row exists in the store, owned by the caller. -/
lemma correctEvent_ok_shape {store store' : List EventRow} {uid tid : String}
    {comp : Int} {fid ck : String} {now : Nat} {c : EventRow}
    (hc : correctEvent store (some uid) tid comp fid ck now = (some c, store')) :
    store' = store ++ [c] ∧ c.event_type = .correction ∧
    c.target_event_id = some tid ∧ c.user_id = uid ∧ c.id = fid ∧
    ∃ target ∈ store, target.id = tid ∧ target.user_id = uid := by
  unfold correctEvent at hc
  dsimp only at hc
  cases hfind : (store.filter (fun r => r.user_id == uid)).find?
      (fun r => r.id == tid) with
  | none =>
    rw [hfind] at hc
    dsimp only at hc
    exact Option.noConfusion (congrArg Prod.fst hc)
  | some target =>
    rw [hfind] at hc
    dsimp only at hc
    cases hins : insertReadingEvent store
        { id := fid, user_id := uid, book_id := target.book_id,
          event_type := .correction, occurred_at := now, completion := comp,
          target_event_id := some tid, client_event_id := ck } with
    | ok s'' =>
      rw [hins] at hc
      dsimp only at hc
      have h1 := congrArg Prod.fst hc
      have h2 : s'' = store' := congrArg Prod.snd hc
      have hcrow := Option.some.inj h1
      obtain ⟨hs, _⟩ := insertReadingEvent_ok hins
      have hmem := List.mem_of_find?_eq_some hfind
      have hp := List.find?_some hfind
      rw [List.mem_filter] at hmem
      refine ⟨?_, ?_, ?_, ?_, ?_, target, hmem.1, ?_, ?_⟩
      · rw [← h2, hs, hcrow]
      · rw [← hcrow]
      · rw [← hcrow]
      · rw [← hcrow]
      · rw [← hcrow]
      · simpa using hp
      · simpa using hmem.2
    | error err =>
      rw [hins] at hc
      dsimp only at hc
      exact Option.noConfusion (congrArg Prod.fst hc)

/-- Helper: appending one correction row to a store changes the valid view
to additionally exclude exactly the owner's rows carrying the correction's
target id. -/
lemma valid_append_correction (S : List EventRow) (γ : EventRow)
    (tid uid : String) (hg : γ.event_type = .correction)
    (hgt : γ.target_event_id = some tid) (hgu : γ.user_id = uid) :
    validReadingEvents (S ++ [γ]) =
      S.filter (fun e =>
        (e.event_type != EventType.correction) &&
        !(S.any fun x => x.event_type == EventType.correction &&
            x.target_event_id == some e.id && x.user_id == e.user_id) &&
        !(e.id == tid && e.user_id == uid)) := by
  unfold validReadingEvents
  rw [List.filter_append]
  have hγ : List.filter (fun e =>
      e.event_type != EventType.correction &&
      !((S ++ [γ]).any fun c => c.event_type == EventType.correction &&
        c.target_event_id == some e.id && c.user_id == e.user_id)) [γ] = [] := by
    simp [hg]
  rw [hγ, List.append_nil]
  apply List.filter_congr
  intro e he
  rw [List.any_append]
  simp only [List.any_cons, List.any_nil, Bool.or_false]
  rw [hg, hgt, hgu]
  simp only [beq_self_eq_true, Bool.true_and]
  by_cases h1 : e.id = tid
  · rw [h1]
    by_cases h2 : e.user_id = uid
    · rw [h2]
      simp
    · have hC : (uid == e.user_id) = false :=
        beq_eq_false_iff_ne.mpr (fun hcontra => h2 hcontra.symm)
      have hC' : (e.user_id == uid) = false := beq_eq_false_iff_ne.mpr h2
      rw [hC, hC']
      simp
  · have hB : (some tid == some e.id) = false :=
      beq_eq_false_iff_ne.mpr (fun hcontra => h1 (Option.some.inj hcontra).symm)
    have hB' : (e.id == tid) = false := beq_eq_false_iff_ne.mpr h1
    rw [hB, hB']
    simp

/-- C2: after a successful `correctEvent` targeting the stored
non-correction event E, the store has grown by exactly the correction row
(all pre-existing rows intact), E is still stored but excluded from the
valid-event view, the view loses exactly the rows with E's id and nothing
else, and any further successful correction of the same target leaves the
view unchanged — E is cancelled exactly once, never double-cancelled. -/
theorem correctEvent_cancels_once (store store' : List EventRow)
    (uid tid : String) (comp : Int) (fid ck : String) (now : Nat)
    (c E : EventRow)
    (hids : (store.map EventRow.id).Nodup)
    (hc : correctEvent store (some uid) tid comp fid ck now = (some c, store'))
    (hE : E ∈ store) (hEid : E.id = tid)
    (hEtype : E.event_type ≠ .correction) :
    store' = store ++ [c] ∧
    E ∈ store' ∧
    E ∉ validReadingEvents store' ∧
    validReadingEvents store' =
      (validReadingEvents store).filter (fun r => r.id != tid) ∧
    (∀ (c₂ : EventRow) (store₂ : List EventRow) (comp₂ : Int)
        (fid₂ ck₂ : String) (now₂ : Nat),
      correctEvent store' (some uid) tid comp₂ fid₂ ck₂ now₂ =
        (some c₂, store₂) →
      validReadingEvents store₂ = validReadingEvents store') := by
  obtain ⟨hs, hct, hctgt, hcu, hcid, target, htmem, htid, htuid⟩ :=
    correctEvent_ok_shape hc
  have hEq : ∀ r ∈ store, r.id = tid → r = E := fun r hr hrid =>
    List.inj_on_of_nodup_map hids hr hE (by rw [hrid, hEid])
  have hEu : E.user_id = uid := by
    rw [← hEq target htmem htid]
    exact htuid
  refine ⟨hs, ?_, ?_, ?_, ?_⟩
  · rw [hs]
    exact List.mem_append_left _ hE
  · rw [hs, valid_append_correction store c tid uid hct hctgt hcu]
    intro hmem
    have hpe := (List.mem_filter.mp hmem).2
    simp [hEid, hEu] at hpe
  · rw [hs, valid_append_correction store c tid uid hct hctgt hcu]
    unfold validReadingEvents
    rw [List.filter_filter]
    apply List.filter_congr
    intro r hr
    by_cases h1 : r.id = tid
    · have hru : r.user_id = uid := by
        rw [hEq r hr h1]
        exact hEu
      simp [h1, hru]
    · have hb : (r.id == tid) = false := beq_eq_false_iff_ne.mpr h1
      have hb' : (r.id != tid) = true := by simp [bne, hb]
      rw [hb', hb]
      simp
  · intro c₂ store₂ comp₂ fid₂ ck₂ now₂ hc₂
    obtain ⟨hs₂, hct₂, hctgt₂, hcu₂, _, _⟩ := correctEvent_ok_shape hc₂
    rw [hs₂, valid_append_correction store' c₂ tid uid hct₂ hctgt₂ hcu₂]
    unfold validReadingEvents
    apply List.filter_congr
    intro r hr
    by_cases h1 : r.id = tid ∧ r.user_id = uid
    · rcases List.mem_append.mp (by rw [← hs]; exact hr) with hrs | hrc
      · have hrE : r = E := hEq r hrs h1.1
        have hany : (store'.any fun x =>
            x.event_type == EventType.correction &&
            x.target_event_id == some r.id && x.user_id == r.user_id) =
            true := by
          refine List.any_eq_true.mpr ⟨c, ?_, ?_⟩
          · rw [hs]
            exact List.mem_append_right _ (List.mem_singleton_self _)
          · simp [hct, hctgt, hcu, hrE, hEid, hEu]
        rw [hany]
        simp
      · rw [List.mem_singleton] at hrc
        have hrt : r.event_type = .correction := by
          rw [hrc]
          exact hct
        simp [hrt]
    · have hfalse : (r.id == tid && r.user_id == uid) = false := by
        rcases not_and_or.mp h1 with h | h
        · simp [beq_eq_false_iff_ne.mpr h]
        · simp [beq_eq_false_iff_ne.mpr h]
      rw [hfalse]
      simp

/-- C2 witness: correcting the stored sample event cancels it exactly
once. -/
theorem correctEvent_cancels_once_witness :
    sampleEventRow ∉ validReadingEvents [sampleEventRow, sampleCorrection] ∧
    sampleEventRow ∈ ([sampleEventRow, sampleCorrection] : List EventRow) ∧
    validReadingEvents [sampleEventRow, sampleCorrection] =
      (validReadingEvents [sampleEventRow]).filter (fun r => r.id != "e1") :=
  have h := correctEvent_cancels_once [sampleEventRow]
    [sampleEventRow, sampleCorrection] "u" "e1" 40 "c1" "k2" 5
    sampleCorrection sampleEventRow (by decide) (by decide) (by decide)
    (by decide) (by decide)
  ⟨h.2.2.1, h.2.1, h.2.2.2.1⟩

end ReadingKG
